import Mathlib

/-!
Shallow embedding of the playback core of `of-lyre` (`src/core.py`):
the score compiler (`midi_to_events`, `midi_total_length`), the event
grouper and the playback scheduler (`play_events`), and the input
dispatcher helpers (`press_keys_simultaneous`, `release_keys_simultaneous`).

Machine floats of the source are modelled as exact rationals (`ℚ`);
MIDI messages are the merged message stream (`mido.merge_tracks`) with
per-message tick deltas.  The Windows `SendInput` primitive is modelled
by a trace of atomic dispatcher calls plus an oracle giving each call's
OS result code (the source stores that code in `res` and never reads it).
-/

namespace OfLyre

/-- Event kind: `'on'` / `'off'` strings of the source. -/
inductive EvKind
  | on
  | off
  deriving DecidableEq

/-- One element of the event list produced by `midi_to_events`:
`(abs_time_seconds, type_str, note, velocity)`. -/
structure TimedEvent where
  time : ℚ
  kind : EvKind
  note : ℕ
  velocity : ℕ
  deriving DecidableEq

/-- One message of the merged MIDI stream.  Every message carries its
tick delta (`msg.time`); `other` stands for any message type that is
neither note-on, note-off nor set-tempo. -/
inductive Msg
  | noteOn (dticks note velocity : ℕ)
  | noteOff (dticks note velocity : ℕ)
  | setTempo (dticks tempo : ℕ)
  | other (dticks : ℕ)
  deriving DecidableEq

/-- `msg.time`: the delta in ticks. -/
def Msg.dticks : Msg → ℕ
  | .noteOn d _ _ => d
  | .noteOff d _ _ => d
  | .setTempo d _ => d
  | .other d => d

/-- `mido.tick2second(tick, ticks_per_beat, tempo)`:
`tick * (tempo / 1e6 / ticks_per_beat)` seconds. -/
def tick2second (tick tpb tempo : ℕ) : ℚ :=
  (tick : ℚ) * ((tempo : ℚ) / 1000000 / (tpb : ℚ))

/-- The `if msg.time: abs_time += tick2second(...)` step of the loops in
`midi_to_events` and `midi_total_length`. -/
def advance (tpb tempo : ℕ) (t : ℚ) (m : Msg) : ℚ :=
  if m.dticks ≠ 0 then t + tick2second m.dticks tpb tempo else t

/-- `if msg.type == 'set_tempo': current_tempo = msg.tempo` — the tempo in
force after a message. -/
def nextTempo (tempo : ℕ) : Msg → ℕ
  | .setTempo _ newTempo => newTempo
  | _ => tempo

/-- Whether the message is a tempo change (those emit no event). -/
def isSetTempo : Msg → Bool
  | .setTempo _ _ => true
  | _ => false

/-- The event (if any) the loop body of `midi_to_events` appends for a
message at accumulator value `t`: note-on with velocity 0 becomes an
off; the note must lie in `48 ≤ note ≤ 83`. -/
def emitEvent (t : ℚ) : Msg → List TimedEvent
  | .noteOn _ note vel =>
      if 48 ≤ note ∧ note ≤ 83 then
        if vel = 0 then [⟨t, .off, note, 0⟩] else [⟨t, .on, note, vel⟩]
      else []
  | .noteOff _ note vel =>
      if 48 ≤ note ∧ note ≤ 83 then [⟨t, .off, note, vel⟩] else []
  | _ => []

/-- `min_time is not None and abs_time < min_time` (the `continue` guard). -/
def beforeMin (minT : Option ℚ) (t : ℚ) : Bool :=
  match minT with
  | some mn => decide (t < mn)
  | none => false

/-- `max_time is not None and abs_time > max_time` (the `break` guard). -/
def afterMax (maxT : Option ℚ) (t : ℚ) : Bool :=
  match maxT with
  | some mx => decide (mx < t)
  | none => false

/-- The main loop of `midi_to_events`, carrying `current_tempo` and the
absolute-time accumulator `abs_time`.  A tempo change updates the tempo
and `continue`s (skipping both window guards); the min-time guard
`continue`s past emission and the max-time guard; the max-time guard
`break`s after the current message was processed. -/
def midi_to_events_aux (tpb : ℕ) (minT maxT : Option ℚ) :
    ℕ → ℚ → List Msg → List TimedEvent
  | _, _, [] => []
  | tempo, t, m :: rest =>
    let t' := advance tpb tempo t m
    if isSetTempo m then
      midi_to_events_aux tpb minT maxT (nextTempo tempo m) t' rest
    else if beforeMin minT t' then
      midi_to_events_aux tpb minT maxT tempo t' rest
    else
      emitEvent t' m ++
        (if afterMax maxT t' then [] else midi_to_events_aux tpb minT maxT tempo t' rest)

/-- Stable insertion of an event into a time-sorted list: the new event
goes before the first element whose time is not strictly smaller. -/
def insertByTime (e : TimedEvent) : List TimedEvent → List TimedEvent
  | [] => [e]
  | x :: xs => if x.time < e.time then x :: insertByTime e xs else e :: x :: xs

/-- `events.sort(key=lambda x: x[0])`: Python's `list.sort` is stable, so
it is modelled by a stable (insertion) sort on the time key. -/
def sortByTime (l : List TimedEvent) : List TimedEvent :=
  l.foldr insertByTime []

/-- `midi_to_events(mid, min_time, max_time)`: scan the merged stream with
the default tempo 500000 µs/beat, post-filter against the window bounds,
then sort by time. -/
def midi_to_events (tpb : ℕ) (msgs : List Msg) (minT maxT : Option ℚ) :
    List TimedEvent :=
  let events := midi_to_events_aux tpb minT maxT 500000 0 msgs
  let events :=
    match minT with
    | some mn => events.filter fun e => decide (mn ≤ e.time)
    | none => events
  let events :=
    match maxT with
    | some mx => events.filter fun e => decide (e.time ≤ mx)
    | none => events
  sortByTime events

/-- The accumulation loop of `midi_total_length`: identical tick-to-seconds
stepping, no event emission. -/
def midi_total_length_aux (tpb : ℕ) : ℕ → ℚ → List Msg → ℚ
  | _, total, [] => total
  | tempo, total, m :: rest =>
      midi_total_length_aux tpb (nextTempo tempo m) (advance tpb tempo total m) rest

/-- `midi_total_length(mid)`. -/
def midi_total_length (tpb : ℕ) (msgs : List Msg) : ℚ :=
  midi_total_length_aux tpb 500000 0 msgs

/-! ### Key mapping table -/

/-- `_WHITE_OFFSETS`: white-key semitone offsets relative to C. -/
def _WHITE_OFFSETS : Finset ℕ := {0, 2, 4, 5, 7, 9, 11}

/-- `_ROW1`: lowest 7 white keys (starting at C3). -/
def _ROW1 : List Char := ['A', 'S', 'D', 'F', 'G', 'H', 'J']

/-- `_ROW2`: middle 7 white keys. -/
def _ROW2 : List Char := ['Q', 'W', 'E', 'R', 'T', 'Y', 'U']

/-- `_ROW3`: highest 7 white keys. -/
def _ROW3 : List Char := ['1', '2', '3', '4', '5', '6', '7']

/-- The 21 white notes from C3 (48) to B5 (83) inclusive, ascending. -/
def whiteNotes : List ℕ :=
  ((List.range 36).map (· + 48)).filter fun n => decide (n % 12 ∈ _WHITE_OFFSETS)

/-- `build_note_to_char_map()`: zipping the three chunks of 7 white notes
with the three rows equals zipping the 21 notes with the rows' concatenation. -/
def build_note_to_char_map : ℕ → Option Char := fun note =>
  List.lookup note (whiteNotes.zip (_ROW1 ++ _ROW2 ++ _ROW3))

/-- `_NOTE_TO_CHAR` in the default configuration (no `key.txt` present). -/
def _NOTE_TO_CHAR : ℕ → Option Char := build_note_to_char_map

/-! ### Input dispatcher -/

/-- `vk_for_char(ch)`: `ord(ch.upper())` (0 only for a character whose
uppercase has code point 0, mirroring the empty-string guard). -/
def vk_for_char (ch : Char) : ℕ := ch.toUpper.toNat

/-- One atomic `SendInput` submission: the whole batch of key-down or
key-up inputs passed in a single OS call. -/
inductive DispatchCall
  | press (chars : List Char)
  | release (chars : List Char)
  deriving DecidableEq

/-- Whether a dispatcher call is a release batch. -/
def DispatchCall.isRel : DispatchCall → Bool
  | .release _ => true
  | .press _ => false

/-- `press_keys_simultaneous(chars)`: one `SendInput` call carrying every
char with a nonzero virtual key (`inputs`), or no call when that batch
is empty. -/
def press_keys_simultaneous (chars : List Char) : List DispatchCall :=
  if (chars.filter fun ch => decide (vk_for_char ch ≠ 0)).isEmpty then []
  else [.press (chars.filter fun ch => decide (vk_for_char ch ≠ 0))]

/-- `release_keys_simultaneous(chars)`: same, with key-up flags. -/
def release_keys_simultaneous (chars : List Char) : List DispatchCall :=
  if (chars.filter fun ch => decide (vk_for_char ch ≠ 0)).isEmpty then []
  else [.release (chars.filter fun ch => decide (vk_for_char ch ≠ 0))]

/-! ### Event grouper -/

/-- The grouping epsilon `1e-9` of `play_events`. -/
def EPS : ℚ := 1 / 1000000000

/-- The grouping loop of `play_events`: an event joins the current group
iff its time is within `EPS` of `cur_t`, the time of the event that
opened the group; otherwise the group is closed and a new one opened. -/
def group_events_aux (curT : ℚ) (curGroup : List TimedEvent) :
    List TimedEvent → List (ℚ × List TimedEvent)
  | [] => [(curT, curGroup)]
  | e :: rest =>
    if |e.time - curT| < EPS then group_events_aux curT (curGroup ++ [e]) rest
    else (curT, curGroup) :: group_events_aux e.time [e] rest

/-- Grouping of the whole event list (`cur_t` starts at `events[0][0]`
with an empty current group, and the loop runs over all events). -/
def group_events : List TimedEvent → List (ℚ × List TimedEvent)
  | [] => []
  | e :: rest => group_events_aux e.time [] (e :: rest)

/-! ### Playback scheduler -/

/-- The `offs` loop of a group: walk the off events in order; a mapped
char that is currently pressed is appended to `chars_to_release` and
discarded from `pressed_chars` immediately (so a duplicate off of the
same note contributes only once). -/
def collect_offs (ntc : ℕ → Option Char) :
    List TimedEvent → Finset Char → List Char × Finset Char
  | [], pressed => ([], pressed)
  | e :: rest, pressed =>
    match ntc e.note with
    | none => collect_offs ntc rest pressed
    | some ch =>
      if ch ∈ pressed then
        ((ch :: (collect_offs ntc rest (pressed.erase ch)).1),
          (collect_offs ntc rest (pressed.erase ch)).2)
      else collect_offs ntc rest pressed

/-- `offs`: the off events of a group, in order. -/
def group_offs (evlist : List TimedEvent) : List TimedEvent :=
  evlist.filter fun e => decide (e.kind = EvKind.off)

/-- `ons`: the on events of a group, in order. -/
def group_ons (evlist : List TimedEvent) : List TimedEvent :=
  evlist.filter fun e => decide (e.kind = EvKind.on)

/-- `chars_to_press`: the mapped chars of the group's on events (events
whose note has no mapping entry are dropped). -/
def chars_to_press (ntc : ℕ → Option Char) (evlist : List TimedEvent) : List Char :=
  (group_ons evlist).filterMap fun e => ntc e.note

/-- `must_release_before_press`: requested chars already pressed after
the off processing — these get a synthetic release (retrigger). -/
def must_release (ntc : ℕ → Option Char) (pressed : Finset Char)
    (evlist : List TimedEvent) : List Char :=
  (chars_to_press ntc evlist).filter fun ch =>
    decide (ch ∈ (collect_offs ntc (group_offs evlist) pressed).2)

/-- The dispatch body of `play_events` for one due group: release the
explicit offs, then release the already-pressed chars among the ons
(retrigger), then press all requested chars; returns the dispatcher
calls in order and the updated `pressed_chars` (erase the retriggered
chars, then add every pressed char). -/
def process_group (ntc : ℕ → Option Char) (pressed : Finset Char)
    (evlist : List TimedEvent) : List DispatchCall × Finset Char :=
  (release_keys_simultaneous (collect_offs ntc (group_offs evlist) pressed).1 ++
      release_keys_simultaneous (must_release ntc pressed evlist) ++
      press_keys_simultaneous (chars_to_press ntc evlist),
    (chars_to_press ntc evlist).foldl (fun s c => insert c s)
      ((must_release ntc pressed evlist).foldl Finset.erase
        (collect_offs ntc (group_offs evlist) pressed).2))

/-- The group loop of `play_events`.  `cancel i` says whether the stop
flag is observed set when group `i` is reached (the flag is checked at
the top of the iteration and again after the wait, both of which `break`
before the group is dispatched); quantifying over arbitrary `cancel`
covers every cancellation timing, including "never" and "before the
first group". -/
def run_groups (ntc : ℕ → Option Char) (cancel : ℕ → Bool) :
    ℕ → Finset Char → List (ℚ × List TimedEvent) → List DispatchCall × Finset Char
  | _, pressed, [] => ([], pressed)
  | i, pressed, (_, evlist) :: rest =>
    if cancel i then ([], pressed)
    else
      ((process_group ntc pressed evlist).1 ++
          (run_groups ntc cancel (i + 1) (process_group ntc pressed evlist).2 rest).1,
        (run_groups ntc cancel (i + 1) (process_group ntc pressed evlist).2 rest).2)

/-- Result of a play session: the ordered dispatcher calls, the OS result
code each `SendInput` call returned (`res` — received and then discarded
by every caller in the source), and the final `pressed_chars` set. -/
structure PlayResult where
  trace : List DispatchCall
  results : List ℕ
  pressed_chars : Finset Char
  deriving DecidableEq

/-- `play_events(events, stop_flag, ...)`.  Timing (`perf_counter` waits,
spin loop, progress callbacks, priority elevation) does not influence
which calls are dispatched, only when; it is abstracted away.  `inj k` is
the OS result code of the `k`-th `SendInput` call. -/
def play_events (ntc : ℕ → Option Char) (cancel : ℕ → Bool) (inj : ℕ → ℕ) :
    List TimedEvent → PlayResult
  | [] => ⟨[], [], ∅⟩
  | e :: rest =>
    let groups := group_events (e :: rest)
    let loopCalls := (run_groups ntc cancel 0 ∅ groups).1
    let pressed := (run_groups ntc cancel 0 ∅ groups).2
    let finalCalls :=
      if pressed = ∅ then loopCalls
      else loopCalls ++ release_keys_simultaneous (pressed.sort (· ≤ ·))
    ⟨finalCalls, (List.range finalCalls.length).map inj,
      if pressed = ∅ then pressed else ∅⟩

/-! ### Lemmas: tick arithmetic and emission -/

lemma EPS_pos : 0 < EPS := by norm_num [EPS]

lemma advance_eq (tpb tempo : ℕ) (t : ℚ) (m : Msg) :
    advance tpb tempo t m = t + (m.dticks : ℚ) * ((tempo : ℚ) / 1000000) / (tpb : ℚ) := by
  unfold advance tick2second
  by_cases h : m.dticks = 0
  · simp [h]
  · rw [if_pos h]
    ring

lemma advance_ge (tpb tempo : ℕ) (t : ℚ) (m : Msg) : t ≤ advance tpb tempo t m := by
  rw [advance_eq]
  have h : (0 : ℚ) ≤ (m.dticks : ℚ) * ((tempo : ℚ) / 1000000) / (tpb : ℚ) := by positivity
  linarith

lemma emitEvent_time {t : ℚ} {m : Msg} {e : TimedEvent} (h : e ∈ emitEvent t m) :
    e.time = t := by
  cases m with
  | noteOn d n v => simp only [emitEvent] at h; split_ifs at h <;> simp_all
  | noteOff d n v => simp only [emitEvent] at h; split_ifs at h <;> simp_all
  | setTempo d τ => simp [emitEvent] at h
  | other d => simp [emitEvent] at h

lemma emitEvent_note_range {t : ℚ} {m : Msg} {e : TimedEvent} (h : e ∈ emitEvent t m) :
    48 ≤ e.note ∧ e.note ≤ 83 := by
  cases m with
  | noteOn d n v => simp only [emitEvent] at h; split_ifs at h <;> simp_all
  | noteOff d n v => simp only [emitEvent] at h; split_ifs at h <;> simp_all
  | setTempo d τ => simp [emitEvent] at h
  | other d => simp [emitEvent] at h

lemma emitEvent_pairwise (t : ℚ) (m : Msg) :
    (emitEvent t m).Pairwise fun a b => a.time ≤ b.time := by
  cases m with
  | noteOn d n v => simp only [emitEvent]; split_ifs <;> simp
  | noteOff d n v => simp only [emitEvent]; split_ifs <;> simp
  | setTempo d τ => simp [emitEvent]
  | other d => simp [emitEvent]

/-- One unfolding of the compiler loop. -/
lemma midi_to_events_aux_cons (tpb : ℕ) (minT maxT : Option ℚ) (tempo : ℕ) (t : ℚ)
    (m : Msg) (rest : List Msg) :
    midi_to_events_aux tpb minT maxT tempo t (m :: rest)
      = if isSetTempo m then
          midi_to_events_aux tpb minT maxT (nextTempo tempo m) (advance tpb tempo t m) rest
        else if beforeMin minT (advance tpb tempo t m) then
          midi_to_events_aux tpb minT maxT tempo (advance tpb tempo t m) rest
        else
          emitEvent (advance tpb tempo t m) m ++
            (if afterMax maxT (advance tpb tempo t m) then []
             else midi_to_events_aux tpb minT maxT tempo (advance tpb tempo t m) rest) := rfl

/-- With no time window there is no `continue`/`break`: each message
emits its events at the advanced accumulator and the scan goes on with
the updated tempo. -/
lemma midi_to_events_aux_cons_nowindow (tpb tempo : ℕ) (t : ℚ) (m : Msg) (rest : List Msg) :
    midi_to_events_aux tpb none none tempo t (m :: rest)
      = emitEvent (advance tpb tempo t m) m ++
          midi_to_events_aux tpb none none (nextTempo tempo m) (advance tpb tempo t m) rest := by
  cases m <;>
    simp [midi_to_events_aux_cons, isSetTempo, nextTempo, emitEvent, beforeMin, afterMax]

lemma midi_to_events_aux_time_ge (tpb : ℕ) (minT maxT : Option ℚ) (msgs : List Msg) :
    ∀ (tempo : ℕ) (t : ℚ) (e : TimedEvent),
      e ∈ midi_to_events_aux tpb minT maxT tempo t msgs → t ≤ e.time := by
  induction msgs with
  | nil => intro tempo t e he; simp [midi_to_events_aux] at he
  | cons m rest ih =>
    intro tempo t e he
    rw [midi_to_events_aux_cons] at he
    split_ifs at he with h1 h2 h3
    · exact le_trans (advance_ge tpb tempo t m) (ih _ _ _ he)
    · exact le_trans (advance_ge tpb tempo t m) (ih _ _ _ he)
    · rcases List.mem_append.mp he with h | h
      · rw [emitEvent_time h]; exact advance_ge tpb tempo t m
      · simp at h
    · rcases List.mem_append.mp he with h | h
      · rw [emitEvent_time h]; exact advance_ge tpb tempo t m
      · exact le_trans (advance_ge tpb tempo t m) (ih _ _ _ h)

lemma midi_to_events_aux_pairwise (tpb : ℕ) (minT maxT : Option ℚ) (msgs : List Msg) :
    ∀ (tempo : ℕ) (t : ℚ),
      (midi_to_events_aux tpb minT maxT tempo t msgs).Pairwise fun a b => a.time ≤ b.time := by
  induction msgs with
  | nil => intro tempo t; simp [midi_to_events_aux]
  | cons m rest ih =>
    intro tempo t
    rw [midi_to_events_aux_cons]
    split_ifs with h1 h2 h3
    · exact ih _ _
    · exact ih _ _
    · simp [emitEvent_pairwise]
    · refine (List.pairwise_append).mpr ⟨emitEvent_pairwise _ _, ih _ _, ?_⟩
      intro a ha b hb
      rw [emitEvent_time ha]
      exact midi_to_events_aux_time_ge tpb minT maxT rest _ _ b hb

lemma midi_to_events_aux_note_range (tpb : ℕ) (minT maxT : Option ℚ) (msgs : List Msg) :
    ∀ (tempo : ℕ) (t : ℚ) (e : TimedEvent),
      e ∈ midi_to_events_aux tpb minT maxT tempo t msgs → 48 ≤ e.note ∧ e.note ≤ 83 := by
  induction msgs with
  | nil => intro tempo t e he; simp [midi_to_events_aux] at he
  | cons m rest ih =>
    intro tempo t e he
    rw [midi_to_events_aux_cons] at he
    split_ifs at he with h1 h2 h3
    · exact ih _ _ _ he
    · exact ih _ _ _ he
    · rcases List.mem_append.mp he with h | h
      · exact emitEvent_note_range h
      · simp at h
    · rcases List.mem_append.mp he with h | h
      · exact emitEvent_note_range h
      · exact ih _ _ _ h

/-! ### Lemmas: the stable sort -/

lemma mem_insertByTime {a e : TimedEvent} {l : List TimedEvent} :
    a ∈ insertByTime e l ↔ a = e ∨ a ∈ l := by
  induction l with
  | nil => simp [insertByTime]
  | cons x xs ih =>
    unfold insertByTime
    split
    · simp only [List.mem_cons, ih]
      tauto
    · simp [List.mem_cons]

lemma mem_sortByTime {a : TimedEvent} {l : List TimedEvent} :
    a ∈ sortByTime l ↔ a ∈ l := by
  induction l with
  | nil => simp [sortByTime]
  | cons x xs ih =>
    show a ∈ insertByTime x (sortByTime xs) ↔ _
    rw [mem_insertByTime, ih]
    simp

lemma insertByTime_eq_cons {e : TimedEvent} {l : List TimedEvent}
    (h : ∀ x ∈ l, e.time ≤ x.time) : insertByTime e l = e :: l := by
  cases l with
  | nil => rfl
  | cons x xs =>
    unfold insertByTime
    rw [if_neg (not_lt.mpr (h x (by simp)))]

lemma sortByTime_eq_self {l : List TimedEvent}
    (h : l.Pairwise fun a b => a.time ≤ b.time) : sortByTime l = l := by
  induction l with
  | nil => rfl
  | cons x xs ih =>
    show insertByTime x (sortByTime xs) = x :: xs
    rw [ih (List.pairwise_cons.mp h).2,
      insertByTime_eq_cons fun y hy => (List.pairwise_cons.mp h).1 y hy]

/-! ### Lemmas: the compiled event list -/

lemma midi_to_events_pairwise (tpb : ℕ) (msgs : List Msg) (minT maxT : Option ℚ) :
    (midi_to_events tpb msgs minT maxT).Pairwise fun a b => a.time ≤ b.time := by
  have haux := midi_to_events_aux_pairwise tpb minT maxT msgs 500000 0
  unfold midi_to_events
  cases minT <;> cases maxT
  · rw [sortByTime_eq_self haux]; exact haux
  · rw [sortByTime_eq_self (haux.filter _)]; exact haux.filter _
  · rw [sortByTime_eq_self (haux.filter _)]; exact haux.filter _
  · rw [sortByTime_eq_self ((haux.filter _).filter _)]; exact (haux.filter _).filter _

lemma midi_to_events_sublist (tpb : ℕ) (msgs : List Msg) (minT maxT : Option ℚ) :
    (midi_to_events tpb msgs minT maxT).Sublist
      (midi_to_events_aux tpb minT maxT 500000 0 msgs) := by
  have haux := midi_to_events_aux_pairwise tpb minT maxT msgs 500000 0
  unfold midi_to_events
  cases minT <;> cases maxT
  · rw [sortByTime_eq_self haux]
  · rw [sortByTime_eq_self (haux.filter _)]; exact List.filter_sublist _
  · rw [sortByTime_eq_self (haux.filter _)]; exact List.filter_sublist _
  · rw [sortByTime_eq_self ((haux.filter _).filter _)]
    exact (List.filter_sublist _).trans (List.filter_sublist _)

lemma midi_to_events_min_bound {tpb : ℕ} {msgs : List Msg} {mn : ℚ} {maxT : Option ℚ}
    {e : TimedEvent} (h : e ∈ midi_to_events tpb msgs (some mn) maxT) : mn ≤ e.time := by
  unfold midi_to_events at h
  cases maxT
  · rw [mem_sortByTime] at h
    exact of_decide_eq_true (List.mem_filter.mp h).2
  · rw [mem_sortByTime] at h
    exact of_decide_eq_true (List.mem_filter.mp (List.mem_filter.mp h).1).2

lemma midi_to_events_max_bound {tpb : ℕ} {msgs : List Msg} {minT : Option ℚ} {mx : ℚ}
    {e : TimedEvent} (h : e ∈ midi_to_events tpb msgs minT (some mx)) : e.time ≤ mx := by
  unfold midi_to_events at h
  cases minT
  · rw [mem_sortByTime] at h
    exact of_decide_eq_true (List.mem_filter.mp h).2
  · rw [mem_sortByTime] at h
    exact of_decide_eq_true (List.mem_filter.mp h).2

/-! ### Lemmas: total length -/

lemma midi_total_length_aux_ge (tpb : ℕ) (msgs : List Msg) :
    ∀ (tempo : ℕ) (t : ℚ), t ≤ midi_total_length_aux tpb tempo t msgs := by
  induction msgs with
  | nil => intro tempo t; simp [midi_total_length_aux]
  | cons m rest ih =>
    intro tempo t
    exact le_trans (advance_ge tpb tempo t m) (ih (nextTempo tempo m) _)

lemma midi_to_events_aux_le_total (tpb : ℕ) (msgs : List Msg) :
    ∀ (tempo : ℕ) (t : ℚ) (e : TimedEvent),
      e ∈ midi_to_events_aux tpb none none tempo t msgs →
        e.time ≤ midi_total_length_aux tpb tempo t msgs := by
  induction msgs with
  | nil => intro tempo t e he; simp [midi_to_events_aux] at he
  | cons m rest ih =>
    intro tempo t e he
    rw [midi_to_events_aux_cons_nowindow] at he
    show e.time ≤ midi_total_length_aux tpb (nextTempo tempo m) (advance tpb tempo t m) rest
    rcases List.mem_append.mp he with h | h
    · rw [emitEvent_time h]; exact midi_total_length_aux_ge tpb rest _ _
    · exact ih _ _ _ h

/-! ### Lemmas: the event grouper -/

lemma group_events_aux_head (es : List TimedEvent) :
    ∀ (curT : ℚ) (acc : List TimedEvent),
      ∃ g rest, group_events_aux curT acc es = (curT, g) :: rest := by
  induction es with
  | nil => intro curT acc; exact ⟨acc, [], rfl⟩
  | cons e es ih =>
    intro curT acc
    unfold group_events_aux
    split
    · exact ih curT (acc ++ [e])
    · exact ⟨acc, _, rfl⟩

lemma group_events_aux_flatten (es : List TimedEvent) :
    ∀ (curT : ℚ) (acc : List TimedEvent),
      ((group_events_aux curT acc es).map Prod.snd).flatten = acc ++ es := by
  induction es with
  | nil => intro curT acc; simp [group_events_aux]
  | cons e es ih =>
    intro curT acc
    unfold group_events_aux
    split
    · rw [ih]; simp
    · simp only [List.map_cons, List.flatten_cons]
      rw [ih]
      simp

lemma group_events_aux_mem_bound (es : List TimedEvent) :
    ∀ (curT : ℚ) (acc : List TimedEvent),
      (∀ e ∈ acc, curT ≤ e.time ∧ e.time < curT + EPS) →
      (∀ e ∈ es, curT ≤ e.time) →
      es.Pairwise (fun a b => a.time ≤ b.time) →
      ∀ p ∈ group_events_aux curT acc es, ∀ e ∈ p.2, p.1 ≤ e.time ∧ e.time < p.1 + EPS := by
  induction es with
  | nil =>
    intro curT acc hacc _ _ p hp e he
    simp only [group_events_aux, List.mem_singleton] at hp
    subst hp
    exact hacc e he
  | cons e0 es ih =>
    intro curT acc hacc hes hpw p hp e he
    unfold group_events_aux at hp
    split at hp
    case isTrue h =>
      refine ih curT (acc ++ [e0]) ?_ ?_ (List.pairwise_cons.mp hpw).2 p hp e he
      · intro x hx
        rcases List.mem_append.mp hx with hx | hx
        · exact hacc x hx
        · rw [List.mem_singleton] at hx
          rw [hx]
          have h1 := hes e0 (by simp)
          have h2 := (abs_lt.mp h).2
          exact ⟨h1, by linarith⟩
      · intro x hx
        exact hes x (by simp [hx])
    case isFalse h =>
      rcases List.mem_cons.mp hp with hp | hp
      · subst hp
        exact hacc e he
      · refine ih e0.time [e0] ?_ ?_ (List.pairwise_cons.mp hpw).2 p hp e he
        · intro x hx
          rw [List.mem_singleton] at hx
          rw [hx]
          exact ⟨le_refl _, by linarith [EPS_pos]⟩
        · exact (List.pairwise_cons.mp hpw).1

lemma group_events_aux_chain (es : List TimedEvent) :
    ∀ (curT : ℚ) (acc : List TimedEvent),
      (∀ e ∈ es, curT ≤ e.time) →
      es.Pairwise (fun a b => a.time ≤ b.time) →
      List.Chain' (· < ·) ((group_events_aux curT acc es).map Prod.fst) := by
  induction es with
  | nil => intro curT acc _ _; simp [group_events_aux]
  | cons e0 es ih =>
    intro curT acc hes hpw
    unfold group_events_aux
    split
    case isTrue h =>
      exact ih curT (acc ++ [e0]) (fun x hx => hes x (by simp [hx]))
        (List.pairwise_cons.mp hpw).2
    case isFalse h =>
      obtain ⟨g, rest, heq⟩ := group_events_aux_head es e0.time [e0]
      rw [List.map_cons, heq, List.map_cons, List.chain'_cons]
      constructor
      · have h1 := hes e0 (by simp)
        have h2 : EPS ≤ |e0.time - curT| := not_lt.mp h
        rw [abs_of_nonneg (by linarith)] at h2
        linarith [EPS_pos]
      · rw [← List.map_cons, ← heq]
        exact ih e0.time [e0] (List.pairwise_cons.mp hpw).1 (List.pairwise_cons.mp hpw).2

/-! ### Lemmas: off collection and pressed-set updates -/

lemma collect_offs_cons_none {ntc : ℕ → Option Char} {e : TimedEvent}
    {rest : List TimedEvent} {pressed : Finset Char} (h : ntc e.note = none) :
    collect_offs ntc (e :: rest) pressed = collect_offs ntc rest pressed := by
  show (match ntc e.note with
    | none => collect_offs ntc rest pressed
    | some ch =>
      if ch ∈ pressed then
        (ch :: (collect_offs ntc rest (pressed.erase ch)).1,
          (collect_offs ntc rest (pressed.erase ch)).2)
      else collect_offs ntc rest pressed) = _
  rw [h]

lemma collect_offs_cons_mem {ntc : ℕ → Option Char} {e : TimedEvent} {ch : Char}
    {rest : List TimedEvent} {pressed : Finset Char} (h : ntc e.note = some ch)
    (hm : ch ∈ pressed) :
    collect_offs ntc (e :: rest) pressed
      = (ch :: (collect_offs ntc rest (pressed.erase ch)).1,
          (collect_offs ntc rest (pressed.erase ch)).2) := by
  show (match ntc e.note with
    | none => collect_offs ntc rest pressed
    | some ch =>
      if ch ∈ pressed then
        (ch :: (collect_offs ntc rest (pressed.erase ch)).1,
          (collect_offs ntc rest (pressed.erase ch)).2)
      else collect_offs ntc rest pressed) = _
  rw [h]
  show (if ch ∈ pressed then
      (ch :: (collect_offs ntc rest (pressed.erase ch)).1,
        (collect_offs ntc rest (pressed.erase ch)).2)
    else collect_offs ntc rest pressed) = _
  rw [if_pos hm]

lemma collect_offs_cons_not_mem {ntc : ℕ → Option Char} {e : TimedEvent} {ch : Char}
    {rest : List TimedEvent} {pressed : Finset Char} (h : ntc e.note = some ch)
    (hm : ch ∉ pressed) :
    collect_offs ntc (e :: rest) pressed = collect_offs ntc rest pressed := by
  show (match ntc e.note with
    | none => collect_offs ntc rest pressed
    | some ch =>
      if ch ∈ pressed then
        (ch :: (collect_offs ntc rest (pressed.erase ch)).1,
          (collect_offs ntc rest (pressed.erase ch)).2)
      else collect_offs ntc rest pressed) = _
  rw [h]
  show (if ch ∈ pressed then
      (ch :: (collect_offs ntc rest (pressed.erase ch)).1,
        (collect_offs ntc rest (pressed.erase ch)).2)
    else collect_offs ntc rest pressed) = _
  rw [if_neg hm]

lemma collect_offs_fst_subset (ntc : ℕ → Option Char) (evs : List TimedEvent) :
    ∀ (pressed : Finset Char), ∀ ch ∈ (collect_offs ntc evs pressed).1, ch ∈ pressed := by
  induction evs with
  | nil => intro pressed ch h; simp [collect_offs] at h
  | cons e rest ih =>
    intro pressed ch h
    cases hnote : ntc e.note with
    | none =>
      rw [collect_offs_cons_none hnote] at h
      exact ih pressed ch h
    | some c =>
      by_cases hm : c ∈ pressed
      · rw [collect_offs_cons_mem hnote hm] at h
        rcases List.mem_cons.mp h with h | h
        · rw [h]; exact hm
        · exact (pressed.erase_subset c) (ih _ ch h)
      · rw [collect_offs_cons_not_mem hnote hm] at h
        exact ih pressed ch h

lemma collect_offs_fst_nodup (ntc : ℕ → Option Char) (evs : List TimedEvent) :
    ∀ (pressed : Finset Char), (collect_offs ntc evs pressed).1.Nodup := by
  induction evs with
  | nil => intro pressed; simp [collect_offs]
  | cons e rest ih =>
    intro pressed
    cases hnote : ntc e.note with
    | none => rw [collect_offs_cons_none hnote]; exact ih pressed
    | some c =>
      by_cases hm : c ∈ pressed
      · rw [collect_offs_cons_mem hnote hm]
        refine List.nodup_cons.mpr ⟨?_, ih _⟩
        intro hc
        have := collect_offs_fst_subset ntc rest (pressed.erase c) c hc
        simp at this
      · rw [collect_offs_cons_not_mem hnote hm]; exact ih pressed

lemma collect_offs_snd_eq (ntc : ℕ → Option Char) (evs : List TimedEvent) :
    ∀ (pressed : Finset Char),
      (collect_offs ntc evs pressed).2
        = pressed \ (collect_offs ntc evs pressed).1.toFinset := by
  induction evs with
  | nil => intro pressed; simp [collect_offs]
  | cons e rest ih =>
    intro pressed
    cases hnote : ntc e.note with
    | none => rw [collect_offs_cons_none hnote, ih]
    | some c =>
      by_cases hm : c ∈ pressed
      · rw [collect_offs_cons_mem hnote hm]
        show (collect_offs ntc rest (pressed.erase c)).2 = _
        rw [ih]
        ext a
        simp only [Finset.mem_sdiff, Finset.mem_erase, List.toFinset_cons,
          Finset.mem_insert, List.mem_toFinset]
        constructor
        · rintro ⟨⟨hne, ha⟩, hnin⟩
          exact ⟨ha, by tauto⟩
        · rintro ⟨ha, hnor⟩
          exact ⟨⟨fun hc => hnor (Or.inl hc), ha⟩, fun hc => hnor (Or.inr (by simpa using hc))⟩
      · rw [collect_offs_cons_not_mem hnote hm, ih]

lemma collect_offs_snd_subset (ntc : ℕ → Option Char) (evs : List TimedEvent)
    (pressed : Finset Char) : (collect_offs ntc evs pressed).2 ⊆ pressed := by
  rw [collect_offs_snd_eq]
  exact Finset.sdiff_subset

lemma collect_offs_no_held (ntc : ℕ → Option Char) (evs : List TimedEvent) :
    ∀ (pressed : Finset Char),
      (∀ e ∈ evs, ∀ ch, ntc e.note = some ch → ch ∉ pressed) →
      collect_offs ntc evs pressed = ([], pressed) := by
  induction evs with
  | nil => intro pressed _; rfl
  | cons e rest ih =>
    intro pressed hh
    cases hnote : ntc e.note with
    | none =>
      rw [collect_offs_cons_none hnote]
      exact ih pressed fun x hx => hh x (by simp [hx])
    | some c =>
      rw [collect_offs_cons_not_mem hnote (hh e (by simp) c hnote)]
      exact ih pressed fun x hx => hh x (by simp [hx])

lemma foldl_erase_eq (l : List Char) :
    ∀ (s : Finset Char), l.foldl Finset.erase s = s \ l.toFinset := by
  induction l with
  | nil => intro s; simp
  | cons c l ih =>
    intro s
    rw [List.foldl_cons, ih, List.toFinset_cons]
    ext a
    simp only [Finset.mem_sdiff, Finset.mem_erase, Finset.mem_insert, List.mem_toFinset]
    tauto

lemma foldl_insert_eq (l : List Char) :
    ∀ (s : Finset Char), l.foldl (fun s c => insert c s) s = s ∪ l.toFinset := by
  induction l with
  | nil => intro s; simp
  | cons c l ih =>
    intro s
    rw [List.foldl_cons, ih, List.toFinset_cons]
    ext a
    simp only [Finset.mem_union, Finset.mem_insert, List.mem_toFinset]
    tauto

/-! ### Lemmas: dispatcher calls -/

lemma mem_release_keys {c : DispatchCall} {xs : List Char}
    (h : c ∈ release_keys_simultaneous xs) :
    c = DispatchCall.release (xs.filter fun ch => decide (vk_for_char ch ≠ 0)) := by
  unfold release_keys_simultaneous at h
  split at h
  · simp at h
  · simpa using h

lemma mem_press_keys {c : DispatchCall} {xs : List Char}
    (h : c ∈ press_keys_simultaneous xs) :
    c = DispatchCall.press (xs.filter fun ch => decide (vk_for_char ch ≠ 0)) := by
  unfold press_keys_simultaneous at h
  split at h
  · simp at h
  · simpa using h

lemma release_keys_of_mem {xs : List Char} {ch : Char}
    (h : ch ∈ xs.filter fun c => decide (vk_for_char c ≠ 0)) :
    release_keys_simultaneous xs
      = [DispatchCall.release (xs.filter fun c => decide (vk_for_char c ≠ 0))] := by
  unfold release_keys_simultaneous
  rw [if_neg]
  intro hemp
  rw [List.isEmpty_iff] at hemp
  rw [hemp] at h
  simp at h

lemma press_keys_of_mem {xs : List Char} {ch : Char}
    (h : ch ∈ xs.filter fun c => decide (vk_for_char c ≠ 0)) :
    press_keys_simultaneous xs
      = [DispatchCall.press (xs.filter fun c => decide (vk_for_char c ≠ 0))] := by
  unfold press_keys_simultaneous
  rw [if_neg]
  intro hemp
  rw [List.isEmpty_iff] at hemp
  rw [hemp] at h
  simp at h

/-! ### Preliminary steps for the claim theorems -/

lemma midi_to_events_single (tpb : ℕ) (m : Msg) :
    midi_to_events tpb [m] none none = emitEvent (advance tpb 500000 0 m) m := by
  show sortByTime (midi_to_events_aux tpb none none 500000 0 [m]) = _
  rw [midi_to_events_aux_cons_nowindow]
  show sortByTime (emitEvent (advance tpb 500000 0 m) m ++ []) = _
  rw [List.append_nil, sortByTime_eq_self (emitEvent_pairwise _ _)]

lemma advance_noteOn (tpb tempo : ℕ) (t : ℚ) (d n v : ℕ) :
    advance tpb tempo t (Msg.noteOn d n v)
      = t + (d : ℚ) * ((tempo : ℚ) / 1000000) / (tpb : ℚ) := by
  rw [advance_eq]
  simp [Msg.dticks]

lemma advance_noteOff (tpb tempo : ℕ) (t : ℚ) (d n v : ℕ) :
    advance tpb tempo t (Msg.noteOff d n v)
      = t + (d : ℚ) * ((tempo : ℚ) / 1000000) / (tpb : ℚ) := by
  rw [advance_eq]
  simp [Msg.dticks]

lemma advance_setTempo (tpb tempo : ℕ) (t : ℚ) (d τ : ℕ) :
    advance tpb tempo t (Msg.setTempo d τ)
      = t + (d : ℚ) * ((tempo : ℚ) / 1000000) / (tpb : ℚ) := by
  rw [advance_eq]
  simp [Msg.dticks]

/-! ### Claim theorems -/

/-- Claim C1: for every key mapping, every cancellation timing and every
event list, `play_events` returns with `pressed_chars` empty — whether the
session finished or was cancelled — and its trace is the group-loop trace
followed by one final cleanup release of every symbol still held. -/
theorem play_events_held_key_invariant (ntc : ℕ → Option Char) (cancel : ℕ → Bool)
    (inj : ℕ → ℕ) (events : List TimedEvent) :
    (play_events ntc cancel inj events).pressed_chars = ∅ ∧
    (play_events ntc cancel inj events).trace
      = (run_groups ntc cancel 0 ∅ (group_events events)).1
        ++ release_keys_simultaneous
            (((run_groups ntc cancel 0 ∅ (group_events events)).2).sort (· ≤ ·)) := by
  cases events with
  | nil =>
    refine ⟨rfl, ?_⟩
    show ([] : List DispatchCall)
      = [] ++ release_keys_simultaneous ((∅ : Finset Char).sort (· ≤ ·))
    simp [release_keys_simultaneous]
  | cons e rest =>
    by_cases hp : (run_groups ntc cancel 0 ∅ (group_events (e :: rest))).2 = ∅
    · constructor
      · show (if _ = ∅ then _ else (∅ : Finset Char)) = ∅
        rw [if_pos hp, hp]
      · show (if (run_groups ntc cancel 0 ∅ (group_events (e :: rest))).2 = ∅ then
            (run_groups ntc cancel 0 ∅ (group_events (e :: rest))).1
          else _) = _
        rw [if_pos hp, hp]
        simp [release_keys_simultaneous]
    · constructor
      · show (if _ = ∅ then _ else (∅ : Finset Char)) = ∅
        rw [if_neg hp]
      · show (if (run_groups ntc cancel 0 ∅ (group_events (e :: rest))).2 = ∅ then
            (run_groups ntc cancel 0 ∅ (group_events (e :: rest))).1
          else (run_groups ntc cancel 0 ∅ (group_events (e :: rest))).1
            ++ release_keys_simultaneous
                (((run_groups ntc cancel 0 ∅ (group_events (e :: rest))).2).sort (· ≤ ·))) = _
        rw [if_neg hp]

/-- Claim C2 (counterexample): a group holding an explicit off (note 60,
symbol `Q`) and a retriggered on (note 62, symbol `W` already pressed)
dispatches its Off-batch `{Q, W}` in two separate release calls, not one. -/
theorem process_group_off_batch_split :
    (process_group _NOTE_TO_CHAR {'Q', 'W'}
        [⟨1, EvKind.off, 60, 0⟩, ⟨1, EvKind.on, 62, 100⟩]).1
      = [DispatchCall.release ['Q'], DispatchCall.release ['W'],
          DispatchCall.press ['W']] ∧
    ((process_group _NOTE_TO_CHAR {'Q', 'W'}
        [⟨1, EvKind.off, 60, 0⟩, ⟨1, EvKind.on, 62, 100⟩]).1.countP
      DispatchCall.isRel) = 2 := by
  with_unfolding_all exact of_decide_eq_true rfl

/-- Claim C2 (amended): per due group the scheduler issues at most three
atomic calls — one releasing the explicit offs, one releasing the
retrigger offs, one pressing the On-batch (each skipped when its batch is
empty) — and updates the pressed set by removing all released symbols and
adding all pressed ones. -/
theorem process_group_dispatch (ntc : ℕ → Option Char) (pressed : Finset Char)
    (evlist : List TimedEvent) :
    (process_group ntc pressed evlist).1
      = release_keys_simultaneous (collect_offs ntc (group_offs evlist) pressed).1
        ++ release_keys_simultaneous (must_release ntc pressed evlist)
        ++ press_keys_simultaneous (chars_to_press ntc evlist) ∧
    (process_group ntc pressed evlist).2
      = (pressed \ ((collect_offs ntc (group_offs evlist) pressed).1.toFinset
            ∪ (must_release ntc pressed evlist).toFinset))
        ∪ (chars_to_press ntc evlist).toFinset := by
  refine ⟨rfl, ?_⟩
  show (chars_to_press ntc evlist).foldl (fun s c => insert c s)
      ((must_release ntc pressed evlist).foldl Finset.erase
        (collect_offs ntc (group_offs evlist) pressed).2) = _
  rw [foldl_insert_eq, foldl_erase_eq, collect_offs_snd_eq]
  ext a
  simp only [Finset.mem_union, Finset.mem_sdiff, List.mem_toFinset]
  tauto

/-- Claim C3 (counterexample): with an injection oracle on which every
`SendInput` call fails (result 0), `play_events` still dispatches the
whole session, returns normally with releases done, and its observable
outcome is identical to a run where every call succeeds — the failure is
swallowed, not propagated. -/
theorem play_events_failure_swallowed :
    (play_events _NOTE_TO_CHAR (fun _ => false) (fun _ => 0)
        [⟨0, EvKind.on, 60, 100⟩, ⟨1, EvKind.off, 60, 0⟩]).results = [0, 0] ∧
    (play_events _NOTE_TO_CHAR (fun _ => false) (fun _ => 0)
        [⟨0, EvKind.on, 60, 100⟩, ⟨1, EvKind.off, 60, 0⟩]).trace
      = [DispatchCall.press ['Q'], DispatchCall.release ['Q']] ∧
    (play_events _NOTE_TO_CHAR (fun _ => false) (fun _ => 1)
        [⟨0, EvKind.on, 60, 100⟩, ⟨1, EvKind.off, 60, 0⟩]).trace
      = [DispatchCall.press ['Q'], DispatchCall.release ['Q']] ∧
    (play_events _NOTE_TO_CHAR (fun _ => false) (fun _ => 0)
        [⟨0, EvKind.on, 60, 100⟩, ⟨1, EvKind.off, 60, 0⟩]).pressed_chars = ∅ := by
  with_unfolding_all exact of_decide_eq_true rfl

/-- Claim C3 (amended): `send_inputs` hands back the OS result code but no
caller reads it — the dispatched calls and the held-key bookkeeping of
`play_events` are independent of the injection results, and the function
always returns normally. -/
theorem play_events_injection_independent (ntc : ℕ → Option Char) (cancel : ℕ → Bool)
    (f g : ℕ → ℕ) (events : List TimedEvent) :
    (play_events ntc cancel f events).trace = (play_events ntc cancel g events).trace ∧
    (play_events ntc cancel f events).pressed_chars
      = (play_events ntc cancel g events).pressed_chars := by
  cases events <;> exact ⟨rfl, rfl⟩

/-- Claim C4: a tick delta is converted with the tempo in force before
its message (`delta * (tempo/1e6) / ticks_per_beat` added to the
accumulator), a tempo change updates the tempo and emits nothing, and the
basic-timing scenario compiles to `(0.5 s, On, 60, 100)`. -/
theorem midi_to_events_tempo_timing :
    (∀ (tpb tempo : ℕ) (t : ℚ) (d τ : ℕ) (rest : List Msg),
        midi_to_events_aux tpb none none tempo t (Msg.setTempo d τ :: rest)
          = midi_to_events_aux tpb none none τ
              (t + (d : ℚ) * ((tempo : ℚ) / 1000000) / (tpb : ℚ)) rest) ∧
    (∀ (tpb tempo : ℕ) (t : ℚ) (d n v : ℕ) (rest : List Msg),
        midi_to_events_aux tpb none none tempo t (Msg.noteOn d n v :: rest)
          = emitEvent (t + (d : ℚ) * ((tempo : ℚ) / 1000000) / (tpb : ℚ)) (Msg.noteOn d n v)
            ++ midi_to_events_aux tpb none none tempo
                (t + (d : ℚ) * ((tempo : ℚ) / 1000000) / (tpb : ℚ)) rest) ∧
    midi_to_events 480 [Msg.noteOn 480 60 100] none none
      = [⟨1 / 2, EvKind.on, 60, 100⟩] := by
  refine ⟨?_, ?_, by with_unfolding_all rfl⟩
  · intro tpb tempo t d τ rest
    rw [midi_to_events_aux_cons_nowindow]
    show [] ++ _ = _
    rw [List.nil_append]
    show midi_to_events_aux tpb none none τ (advance tpb tempo t (Msg.setTempo d τ)) rest = _
    rw [advance_setTempo]
  · intro tpb tempo t d n v rest
    rw [midi_to_events_aux_cons_nowindow]
    show emitEvent (advance tpb tempo t (Msg.noteOn d n v)) _ ++
        midi_to_events_aux tpb none none tempo (advance tpb tempo t (Msg.noteOn d n v)) rest = _
    rw [advance_noteOn]

/-- Claim C5 (counterexample): with sorted events at times 0, 6e-10 and
12e-10 the second and third differ by 6e-10 < 1e-9, yet the grouper puts
them in different groups (the third is 12e-10 ≥ 1e-9 away from the first
event of the open group). -/
theorem group_events_adjacent_split :
    |((12 : ℚ) / 10000000000) - ((6 : ℚ) / 10000000000)| < EPS ∧
    group_events
        [⟨0, EvKind.on, 50, 10⟩, ⟨(6 : ℚ) / 10000000000, EvKind.on, 52, 10⟩,
          ⟨(12 : ℚ) / 10000000000, EvKind.on, 53, 10⟩]
      = [(0, [⟨0, EvKind.on, 50, 10⟩, ⟨(6 : ℚ) / 10000000000, EvKind.on, 52, 10⟩]),
          ((12 : ℚ) / 10000000000, [⟨(12 : ℚ) / 10000000000, EvKind.on, 53, 10⟩])] := by
  constructor
  · have h1 : ((12 : ℚ) / 10000000000) - ((6 : ℚ) / 10000000000) = 3 / 5000000000 := by
      norm_num
    rw [h1, abs_of_nonneg (by norm_num : (0 : ℚ) ≤ 3 / 5000000000)]
    norm_num [EPS]
  · with_unfolding_all rfl

/-- Claim C5 (amended): on a time-sorted input the grouper admits an event
into the open group iff its time is within 1e-9 of the group's first
event's time; the groups concatenate back to the input, group times are
strictly ascending, every event lies in `[group time, group time + 1e-9)`,
and any two events of one group differ by less than 1e-9 — but two
adjacent events closer than 1e-9 may still straddle a group boundary. -/
theorem group_events_grouping (events : List TimedEvent)
    (h : events.Pairwise fun a b => a.time ≤ b.time) :
    (((group_events events).map Prod.snd).flatten = events) ∧
    (List.Chain' (· < ·) ((group_events events).map Prod.fst)) ∧
    (∀ p ∈ group_events events, ∀ e ∈ p.2, p.1 ≤ e.time ∧ e.time < p.1 + EPS) ∧
    (∀ p ∈ group_events events, ∀ e1 ∈ p.2, ∀ e2 ∈ p.2, |e1.time - e2.time| < EPS) := by
  cases events with
  | nil => refine ⟨rfl, by simp [group_events], by simp [group_events], by simp [group_events]⟩
  | cons e es =>
    have hall : ∀ x ∈ e :: es, e.time ≤ x.time := by
      intro x hx
      rcases List.mem_cons.mp hx with hx | hx
      · rw [hx]
      · exact (List.pairwise_cons.mp h).1 x hx
    refine ⟨?_, group_events_aux_chain (e :: es) e.time [] hall h,
      group_events_aux_mem_bound (e :: es) e.time [] (by simp) hall h, ?_⟩
    · show ((group_events_aux e.time [] (e :: es)).map Prod.snd).flatten = _
      rw [group_events_aux_flatten]
      rfl
    · intro p hp e1 h1 e2 h2
      have b1 := group_events_aux_mem_bound (e :: es) e.time [] (by simp) hall h p hp e1 h1
      have b2 := group_events_aux_mem_bound (e :: es) e.time [] (by simp) hall h p hp e2 h2
      rw [abs_sub_lt_iff]
      constructor <;> linarith [b1.1, b1.2, b2.1, b2.2]

/-- Claim C5 (amended) witness at a concrete sorted two-event list. -/
theorem group_events_grouping_witness :
    (([⟨0, EvKind.on, 50, 10⟩, ⟨2, EvKind.off, 50, 0⟩] : List TimedEvent).Pairwise
        fun a b => a.time ≤ b.time) ∧
    ((((group_events [⟨0, EvKind.on, 50, 10⟩, ⟨2, EvKind.off, 50, 0⟩]).map Prod.snd).flatten
        = [⟨0, EvKind.on, 50, 10⟩, ⟨2, EvKind.off, 50, 0⟩]) ∧
      (List.Chain' (· < ·)
        ((group_events [⟨0, EvKind.on, 50, 10⟩, ⟨2, EvKind.off, 50, 0⟩]).map Prod.fst)) ∧
      (∀ p ∈ group_events [⟨0, EvKind.on, 50, 10⟩, ⟨2, EvKind.off, 50, 0⟩],
        ∀ e ∈ p.2, p.1 ≤ e.time ∧ e.time < p.1 + EPS) ∧
      (∀ p ∈ group_events [⟨0, EvKind.on, 50, 10⟩, ⟨2, EvKind.off, 50, 0⟩],
        ∀ e1 ∈ p.2, ∀ e2 ∈ p.2, |e1.time - e2.time| < EPS)) :=
  ⟨by with_unfolding_all exact of_decide_eq_true rfl,
    group_events_grouping _ (by with_unfolding_all exact of_decide_eq_true rfl)⟩

/-- Claim C6: an On event whose mapped symbol is already held after the
group's off processing gets a synthetic release, dispatched in the
release call that precedes the group's press call; on the retrigger
scenario `[(0, On, 60), (0.1, On, 60)]` the dispatched sequence is
press, then release immediately followed by press (and the final cleanup
release). -/
theorem play_events_retrigger :
    (∀ (ntc : ℕ → Option Char) (pressed : Finset Char) (evlist : List TimedEvent) (ch : Char),
        ch ∈ chars_to_press ntc evlist →
        ch ∈ (collect_offs ntc (group_offs evlist) pressed).2 →
        vk_for_char ch ≠ 0 →
        (process_group ntc pressed evlist).1
            = release_keys_simultaneous (collect_offs ntc (group_offs evlist) pressed).1
              ++ [DispatchCall.release
                    ((must_release ntc pressed evlist).filter fun c => decide (vk_for_char c ≠ 0)),
                  DispatchCall.press
                    ((chars_to_press ntc evlist).filter fun c => decide (vk_for_char c ≠ 0))]
          ∧ ch ∈ (must_release ntc pressed evlist).filter (fun c => decide (vk_for_char c ≠ 0))
          ∧ ch ∈ (chars_to_press ntc evlist).filter fun c => decide (vk_for_char c ≠ 0)) ∧
    (play_events _NOTE_TO_CHAR (fun _ => false) (fun _ => 0)
        [⟨0, EvKind.on, 60, 100⟩, ⟨1 / 10, EvKind.on, 60, 100⟩]).trace
      = [DispatchCall.press ['Q'], DispatchCall.release ['Q'], DispatchCall.press ['Q'],
          DispatchCall.release ['Q']] := by
  constructor
  · intro ntc pressed evlist ch h1 h2 h3
    have hmr : ch ∈ must_release ntc pressed evlist :=
      List.mem_filter.mpr ⟨h1, decide_eq_true h2⟩
    have hmrf : ch ∈ (must_release ntc pressed evlist).filter
        fun c => decide (vk_for_char c ≠ 0) :=
      List.mem_filter.mpr ⟨hmr, decide_eq_true h3⟩
    have hctf : ch ∈ (chars_to_press ntc evlist).filter
        fun c => decide (vk_for_char c ≠ 0) :=
      List.mem_filter.mpr ⟨h1, decide_eq_true h3⟩
    refine ⟨?_, hmrf, hctf⟩
    show release_keys_simultaneous (collect_offs ntc (group_offs evlist) pressed).1
        ++ release_keys_simultaneous (must_release ntc pressed evlist)
        ++ press_keys_simultaneous (chars_to_press ntc evlist) = _
    rw [release_keys_of_mem hmrf, press_keys_of_mem hctf]
    simp
  · with_unfolding_all rfl

/-- Claim C6 witness: the retrigger hypotheses hold for symbol `Q` in a
group pressing note 60 while `Q` is already held. -/
theorem play_events_retrigger_witness :
    (process_group _NOTE_TO_CHAR {'Q'} [⟨1 / 10, EvKind.on, 60, 100⟩]).1
        = release_keys_simultaneous
            (collect_offs _NOTE_TO_CHAR (group_offs [⟨1 / 10, EvKind.on, 60, 100⟩]) {'Q'}).1
          ++ [DispatchCall.release
                ((must_release _NOTE_TO_CHAR {'Q'} [⟨1 / 10, EvKind.on, 60, 100⟩]).filter
                  fun c => decide (vk_for_char c ≠ 0)),
              DispatchCall.press
                ((chars_to_press _NOTE_TO_CHAR [⟨1 / 10, EvKind.on, 60, 100⟩]).filter
                  fun c => decide (vk_for_char c ≠ 0))]
      ∧ 'Q' ∈ (must_release _NOTE_TO_CHAR {'Q'} [⟨1 / 10, EvKind.on, 60, 100⟩]).filter
            (fun c => decide (vk_for_char c ≠ 0))
      ∧ 'Q' ∈ (chars_to_press _NOTE_TO_CHAR [⟨1 / 10, EvKind.on, 60, 100⟩]).filter
            fun c => decide (vk_for_char c ≠ 0) :=
  play_events_retrigger.1 _NOTE_TO_CHAR {'Q'} [⟨1 / 10, EvKind.on, 60, 100⟩] 'Q'
    (by with_unfolding_all exact of_decide_eq_true rfl)
    (by with_unfolding_all exact of_decide_eq_true rfl)
    (by decide)

/-- Claim C7: a note-on with velocity 0 compiles to an Off, a note-on
with positive velocity to an On, a note-off to an Off — all only when the
note lies in the window 48..83, otherwise no event — and every compiled
event's note lies in 48..83. -/
theorem midi_to_events_note_emission (tpb d n v : ℕ) :
    (midi_to_events tpb [Msg.noteOn d n v] none none
      = if 48 ≤ n ∧ n ≤ 83 then
          if v = 0 then
            [⟨(d : ℚ) * ((500000 : ℚ) / 1000000) / (tpb : ℚ), EvKind.off, n, 0⟩]
          else [⟨(d : ℚ) * ((500000 : ℚ) / 1000000) / (tpb : ℚ), EvKind.on, n, v⟩]
        else []) ∧
    (midi_to_events tpb [Msg.noteOff d n v] none none
      = if 48 ≤ n ∧ n ≤ 83 then
          [⟨(d : ℚ) * ((500000 : ℚ) / 1000000) / (tpb : ℚ), EvKind.off, n, v⟩]
        else []) ∧
    (midi_to_events tpb [Msg.setTempo d n] none none = []) ∧
    (∀ msgs : List Msg, ∀ e ∈ midi_to_events tpb msgs none none,
      48 ≤ e.note ∧ e.note ≤ 83) := by
  have hadv : advance tpb 500000 0 (Msg.noteOn d n v)
      = (d : ℚ) * ((500000 : ℚ) / 1000000) / (tpb : ℚ) := by
    rw [advance_noteOn]; ring
  have hadv2 : advance tpb 500000 0 (Msg.noteOff d n v)
      = (d : ℚ) * ((500000 : ℚ) / 1000000) / (tpb : ℚ) := by
    rw [advance_noteOff]; ring
  refine ⟨?_, ?_, ?_, ?_⟩
  · rw [midi_to_events_single, hadv]
    simp only [emitEvent]
  · rw [midi_to_events_single, hadv2]
    simp only [emitEvent]
  · rw [midi_to_events_single]
    rfl
  · intro msgs e he
    exact midi_to_events_aux_note_range tpb none none msgs 500000 0 e
      ((midi_to_events_sublist tpb msgs none none).subset he)

/-- Claim C7 witness: a concrete compiled event is in the 48..83 window. -/
theorem midi_to_events_note_emission_witness :
    ((⟨0, EvKind.on, 60, 100⟩ : TimedEvent)
        ∈ midi_to_events 480 [Msg.noteOn 0 60 100] none none) ∧
    (48 ≤ (⟨0, EvKind.on, 60, 100⟩ : TimedEvent).note ∧
      (⟨0, EvKind.on, 60, 100⟩ : TimedEvent).note ≤ 83) :=
  ⟨by with_unfolding_all exact of_decide_eq_true rfl,
    (midi_to_events_note_emission 480 0 60 100).2.2.2 [Msg.noteOn 0 60 100] _
      (by with_unfolding_all exact of_decide_eq_true rfl)⟩

/-- Claim C8: with a time window, every output event lies inside the
supplied bounds (the early `break` never lets an out-of-window event past
the exact post-filter), and the output is sorted by time with equal-time
events kept in arrival order (it is a sublist of the scan order). -/
theorem midi_to_events_window (tpb : ℕ) (msgs : List Msg) (minT maxT : Option ℚ) :
    (∀ mn : ℚ, minT = some mn →
      ∀ e ∈ midi_to_events tpb msgs minT maxT, mn ≤ e.time) ∧
    (∀ mx : ℚ, maxT = some mx →
      ∀ e ∈ midi_to_events tpb msgs minT maxT, e.time ≤ mx) ∧
    ((midi_to_events tpb msgs minT maxT).Pairwise fun a b => a.time ≤ b.time) ∧
    (midi_to_events tpb msgs minT maxT).Sublist
      (midi_to_events_aux tpb minT maxT 500000 0 msgs) := by
  refine ⟨?_, ?_, midi_to_events_pairwise tpb msgs minT maxT,
    midi_to_events_sublist tpb msgs minT maxT⟩
  · intro mn hmn e he
    subst hmn
    exact midi_to_events_min_bound he
  · intro mx hmx e he
    subst hmx
    exact midi_to_events_max_bound he

/-- Claim C8 witness: the event surviving the window `[1/4, 3/4]` lies
inside the bounds. -/
theorem midi_to_events_window_witness :
    ((⟨1 / 2, EvKind.on, 60, 100⟩ : TimedEvent)
        ∈ midi_to_events 480 [Msg.noteOn 480 60 100, Msg.noteOn 480 62 100]
            (some (1 / 4)) (some (3 / 4))) ∧
    (1 / 4 : ℚ) ≤ (⟨1 / 2, EvKind.on, 60, 100⟩ : TimedEvent).time ∧
    (⟨1 / 2, EvKind.on, 60, 100⟩ : TimedEvent).time ≤ (3 / 4 : ℚ) :=
  ⟨by with_unfolding_all exact of_decide_eq_true rfl,
    (midi_to_events_window 480 [Msg.noteOn 480 60 100, Msg.noteOn 480 62 100]
        (some (1 / 4)) (some (3 / 4))).1 (1 / 4) rfl _
      (by with_unfolding_all exact of_decide_eq_true rfl),
    (midi_to_events_window 480 [Msg.noteOn 480 60 100, Msg.noteOn 480 62 100]
        (some (1 / 4)) (some (3 / 4))).2.1 (3 / 4) rfl _
      (by with_unfolding_all exact of_decide_eq_true rfl)⟩

/-- Claim C9: `midi_total_length` steps with the very same tempo-aware
accumulator update as `midi_to_events` (which appends its emission per
message) and returns the final accumulator value, so with no time window
every compiled event's time is bounded by the total length. -/
theorem midi_total_length_refines (tpb : ℕ) (msgs : List Msg) :
    (∀ (tempo : ℕ) (t : ℚ) (m : Msg) (rest : List Msg),
        midi_total_length_aux tpb tempo t (m :: rest)
          = midi_total_length_aux tpb (nextTempo tempo m) (advance tpb tempo t m) rest) ∧
    (∀ (tempo : ℕ) (t : ℚ) (m : Msg) (rest : List Msg),
        midi_to_events_aux tpb none none tempo t (m :: rest)
          = emitEvent (advance tpb tempo t m) m
            ++ midi_to_events_aux tpb none none (nextTempo tempo m)
                (advance tpb tempo t m) rest) ∧
    (∀ e ∈ midi_to_events tpb msgs none none, e.time ≤ midi_total_length tpb msgs) := by
  refine ⟨fun tempo t m rest => rfl,
    fun tempo t m rest => midi_to_events_aux_cons_nowindow tpb tempo t m rest, ?_⟩
  intro e he
  exact midi_to_events_aux_le_total tpb msgs 500000 0 e
    ((midi_to_events_sublist tpb msgs none none).subset he)

/-- Claim C9 witness: the single compiled event of the basic-timing
scenario is bounded by the stream's total length. -/
theorem midi_total_length_refines_witness :
    (⟨1 / 2, EvKind.on, 60, 100⟩ : TimedEvent).time
      ≤ midi_total_length 480 [Msg.noteOn 480 60 100] :=
  (midi_total_length_refines 480 [Msg.noteOn 480 60 100]).2.2 _
    (by with_unfolding_all exact of_decide_eq_true rfl)

/-- Claim C10: every release call the group dispatch issues carries only
symbols that were held; the explicit-off collection releases each held
symbol at most once, and when no off event maps to a held symbol it
produces nothing (so no release call is issued for it). -/
theorem process_group_release_only_held (ntc : ℕ → Option Char) (pressed : Finset Char)
    (evlist : List TimedEvent) :
    (∀ l, DispatchCall.release l ∈ (process_group ntc pressed evlist).1 →
        ∀ ch ∈ l, ch ∈ pressed) ∧
    (collect_offs ntc (group_offs evlist) pressed).1.Nodup ∧
    ((∀ e ∈ group_offs evlist, ∀ ch, ntc e.note = some ch → ch ∉ pressed) →
      collect_offs ntc (group_offs evlist) pressed = ([], pressed)) := by
  refine ⟨?_, collect_offs_fst_nodup ntc (group_offs evlist) pressed,
    collect_offs_no_held ntc (group_offs evlist) pressed⟩
  intro l hl ch hch
  have hsplit : (process_group ntc pressed evlist).1
      = release_keys_simultaneous (collect_offs ntc (group_offs evlist) pressed).1
        ++ release_keys_simultaneous (must_release ntc pressed evlist)
        ++ press_keys_simultaneous (chars_to_press ntc evlist) := rfl
  rw [hsplit] at hl
  rcases List.mem_append.mp hl with hl' | hl'
  · rcases List.mem_append.mp hl' with hl2 | hl2
    · have hle := DispatchCall.release.inj (mem_release_keys hl2)
      rw [hle] at hch
      exact collect_offs_fst_subset ntc (group_offs evlist) pressed ch
        (List.mem_of_mem_filter hch)
    · have hle := DispatchCall.release.inj (mem_release_keys hl2)
      rw [hle] at hch
      have h1 : ch ∈ must_release ntc pressed evlist := List.mem_of_mem_filter hch
      have h2 : ch ∈ (collect_offs ntc (group_offs evlist) pressed).2 :=
        of_decide_eq_true (List.mem_filter.mp h1).2
      exact collect_offs_snd_subset ntc (group_offs evlist) pressed h2
  · exact absurd (mem_press_keys hl') (by simp)

/-- Claim C10 witness: a held-symbol release is admitted, and a group of
only unmapped-or-unheld offs collects nothing. -/
theorem process_group_release_only_held_witness :
    (DispatchCall.release ['Q']
        ∈ (process_group _NOTE_TO_CHAR {'Q'} [⟨0, EvKind.off, 60, 0⟩]).1) ∧
    'Q' ∈ ({'Q'} : Finset Char) ∧
    collect_offs _NOTE_TO_CHAR (group_offs []) {'W'} = ([], {'W'}) :=
  ⟨by with_unfolding_all exact of_decide_eq_true rfl,
    (process_group_release_only_held _NOTE_TO_CHAR {'Q'} [⟨0, EvKind.off, 60, 0⟩]).1 ['Q']
      (by with_unfolding_all exact of_decide_eq_true rfl) 'Q' (by decide),
    (process_group_release_only_held _NOTE_TO_CHAR {'W'} []).2.2
      (fun e he => absurd he (List.not_mem_nil e))⟩

end OfLyre
